import Mathlib

/-!
Verification of the `sierra` branch-triage tool (src/src/main.rs) against its
specification.  The Rust program is shallowly embedded: pure functions become
Lean functions, terminal I/O becomes an explicit output trace (`List String`)
and an explicit input byte stream (`List Nat`), repository mutation becomes an
explicit trace of deleted branches, and the blocking/recursive prompt loop is
given an explicit fuel parameter.  Machine integers (`i64` timestamps, `i32`
offsets) are far from overflow in every claim, so they are embedded as `Int`.
-/

namespace Sierra

/-! ## String utilities

`str::contains` in Rust is byte-substring search; on valid UTF-8 this agrees
with character-level substring search (UTF-8 is self-synchronising), embedded
here over `List Char`. -/

/-- Does `pat` occur as a prefix of `l`? -/
def listStartsWith : List Char → List Char → Bool
  | [], _ => true
  | _ :: _, [] => false
  | p :: ps, c :: cs => p == c && listStartsWith ps cs

/-- Does `pat` occur as a contiguous sublist of `l`?  (Rust `str::contains`.) -/
def listOccurs (pat : List Char) : List Char → Bool
  | [] => pat.isEmpty
  | c :: cs => listStartsWith pat (c :: cs) || listOccurs pat cs

/-- Substring containment on strings (Rust `str::contains`). -/
def strOccurs (pat s : String) : Bool := listOccurs pat.data s.data

/-- ASCII lowercasing of one character. -/
def charToLower (c : Char) : Char :=
  if 65 ≤ c.toNat ∧ c.toNat ≤ 90 then Char.ofNat (c.toNat + 32) else c

/-- Rust `str::to_lowercase`.  The Rust function applies the full Unicode
lowercase mapping; every branch and filter any claim exercises is ASCII, on
which this character-wise ASCII mapping agrees with it. -/
def to_lowercase (s : String) : String := String.mk (s.data.map charToLower)

/-! ## UTF-8 validation/decoding

Embeds Rust's `String::from_utf8` validation exactly (RFC 3629 table: rejects
continuation errors, overlong encodings, surrogates and values above
U+10FFFF).  Decodes a byte list to a list of Unicode scalar values, `none` on
invalid input.  The fuel argument is instantiated with the byte count, which
always suffices since every decoded scalar consumes at least one byte. -/

/-- A UTF-8 continuation byte: `0x80 ..= 0xBF`. -/
def isContByte (b : Nat) : Bool := 0x80 ≤ b && b ≤ 0xBF

/-- Fuelled UTF-8 decoder over a byte list; yields Unicode scalar values. -/
def utf8DecodeAux : Nat → List Nat → Option (List Nat)
  | _, [] => some []
  | 0, _ :: _ => none
  | fuel + 1, b :: rest =>
    if b ≤ 0x7F then
      (utf8DecodeAux fuel rest).map (fun cps => b :: cps)
    else if 0xC2 ≤ b && b ≤ 0xDF then
      match rest with
      | c1 :: r =>
        if isContByte c1 then
          (utf8DecodeAux fuel r).map
            (fun cps => ((b - 0xC0) * 0x40 + (c1 - 0x80)) :: cps)
        else none
      | [] => none
    else if b == 0xE0 then
      match rest with
      | c1 :: c2 :: r =>
        if (0xA0 ≤ c1 && c1 ≤ 0xBF) && isContByte c2 then
          (utf8DecodeAux fuel r).map
            (fun cps => ((b - 0xE0) * 0x1000 + (c1 - 0x80) * 0x40 + (c2 - 0x80)) :: cps)
        else none
      | _ => none
    else if (0xE1 ≤ b && b ≤ 0xEC) || (0xEE ≤ b && b ≤ 0xEF) then
      match rest with
      | c1 :: c2 :: r =>
        if isContByte c1 && isContByte c2 then
          (utf8DecodeAux fuel r).map
            (fun cps => ((b - 0xE0) * 0x1000 + (c1 - 0x80) * 0x40 + (c2 - 0x80)) :: cps)
        else none
      | _ => none
    else if b == 0xED then
      match rest with
      | c1 :: c2 :: r =>
        if (0x80 ≤ c1 && c1 ≤ 0x9F) && isContByte c2 then
          (utf8DecodeAux fuel r).map
            (fun cps => ((b - 0xE0) * 0x1000 + (c1 - 0x80) * 0x40 + (c2 - 0x80)) :: cps)
        else none
      | _ => none
    else if b == 0xF0 then
      match rest with
      | c1 :: c2 :: c3 :: r =>
        if ((0x90 ≤ c1 && c1 ≤ 0xBF) && isContByte c2) && isContByte c3 then
          (utf8DecodeAux fuel r).map
            (fun cps =>
              ((b - 0xF0) * 0x40000 + (c1 - 0x80) * 0x1000 +
                (c2 - 0x80) * 0x40 + (c3 - 0x80)) :: cps)
        else none
      | _ => none
    else if 0xF1 ≤ b && b ≤ 0xF3 then
      match rest with
      | c1 :: c2 :: c3 :: r =>
        if (isContByte c1 && isContByte c2) && isContByte c3 then
          (utf8DecodeAux fuel r).map
            (fun cps =>
              ((b - 0xF0) * 0x40000 + (c1 - 0x80) * 0x1000 +
                (c2 - 0x80) * 0x40 + (c3 - 0x80)) :: cps)
        else none
      | _ => none
    else if b == 0xF4 then
      match rest with
      | c1 :: c2 :: c3 :: r =>
        if ((0x80 ≤ c1 && c1 ≤ 0x8F) && isContByte c2) && isContByte c3 then
          (utf8DecodeAux fuel r).map
            (fun cps =>
              ((b - 0xF0) * 0x40000 + (c1 - 0x80) * 0x1000 +
                (c2 - 0x80) * 0x40 + (c3 - 0x80)) :: cps)
        else none
      | _ => none
    else none

/-- Rust `String::from_utf8` on a byte list, as Unicode scalar values. -/
def utf8Decode (l : List Nat) : Option (List Nat) := utf8DecodeAux l.length l

/-! ## Data model (src/src/main.rs lines 16-78) -/

/-- `git2::BranchType`. -/
inductive BranchType where
  | Local
  | Remote
deriving DecidableEq, Repr

/-- The umbrella error enum of main.rs (lines 41-58).  The `transparent`
variants wrap an external library error; its display text is carried as an
abstract string. -/
inductive Error where
  | crosstermError (msg : String)
  | ioError (msg : String)
  | gitError (msg : String)
  | fromUtf8Error
  | invalidInput (c : Char)
deriving DecidableEq, Repr

/-- The user-visible message of each error.  `invalidInput` renders the
`thiserror` format string `"Invalid input, dont know '{0}'"`; the transparent
variants delegate to the wrapped error's display (carried abstractly); the
`FromUtf8Error` display text is produced by the external standard library and
is abstracted by its fixed prefix. -/
def Error.message : Error → String
  | .crosstermError m => m
  | .ioError m => m
  | .gitError m => m
  | .fromUtf8Error => "invalid utf-8 sequence"
  | .invalidInput c => "Invalid input, dont know '" ++ String.singleton c ++ "'"

/-- `enum BranchAction` (lines 60-65). -/
inductive BranchAction where
  | Keep
  | Delete
  | Quit
deriving DecidableEq, Repr

/-- `impl TryFrom<char> for BranchAction` (lines 67-78). -/
def branchActionTryFrom (c : Char) : Except Error BranchAction :=
  match c with
  | 'k' => .ok .Keep
  | 'd' => .ok .Delete
  | 'q' => .ok .Quit
  | _ => .error (.invalidInput c)

/-- `struct Branch` (lines 16-31).  `id: Oid` is an opaque fixed-width hash,
carried as its hex display string (the only use the program makes of it);
`commit_time: NaiveDateTime` is carried as seconds since the epoch.  The
`branch: git2::Branch` handle itself has no data content in the embedding:
deleting it is recorded in the mutation trace of the triage loop. -/
structure Branch where
  id : String
  name : String
  commit_author : String
  commit_summary : String
  branch_type : BranchType
  commit_time : Int
  is_head : Bool
deriving DecidableEq, Repr

/-- `fn branch_type_to_str` (lines 151-156). -/
def branch_type_to_str : BranchType → String
  | .Local => "local"
  | .Remote => "remote"

/-- `main`'s exit behaviour (lines 313-319): `Ok` falls through (process exit
code 0), `Err` prints the message and exits 1. -/
def processExitCode : Except Error Unit → Nat
  | .ok _ => 0
  | .error _ => 1

/-! ## Branch metadata extraction (src/src/main.rs lines 170-191)

The repository collaborator (git2) yields, per branch handle: the raw name
bytes, the tip commit's id/time/author/summary, the branch kind and the HEAD
flag.  `peelOk` models whether `peel_to_commit` succeeds (an external VCS
error source). -/

/-- A raw branch handle as surfaced by the repository collaborator. -/
structure RawBranch where
  nameBytes : List Nat
  id : String
  seconds : Int
  offsetMinutes : Int
  author : Option String
  summary : Option String
  branchType : BranchType
  isHead : Bool
  peelOk : Bool
deriving DecidableEq, Repr

/-- `chrono::NaiveDateTime::from_timestamp(secs, nsecs)`: a `NaiveDateTime` is
embedded as its seconds since the epoch (no claim involves sub-second
precision; the program always passes `nsecs = 0`). -/
def naiveDateTimeFromTimestamp (secs : Int) (_nsecs : Nat) : Int := secs

/-- `chrono::Duration::minutes(m)`, embedded as seconds; `+` on
`NaiveDateTime`/`Duration` is addition of seconds. -/
def durationMinutes (m : Int) : Int := 60 * m

/-- The per-branch extraction closure body (lines 170-191): decode the name as
UTF-8 (error `FromUtf8Error` if invalid), resolve the tip commit (external
error if `peel_to_commit` fails), apply the author/summary fallback sentinels,
and shift the commit's epoch seconds by its recorded offset in minutes. -/
def extract (r : RawBranch) : Except Error Branch :=
  match utf8Decode r.nameBytes with
  | none => .error .fromUtf8Error
  | some cps =>
    if r.peelOk then
      .ok
        { id := r.id
          name := String.mk (cps.map Char.ofNat)
          commit_author := r.author.getD "no author"
          commit_summary := r.summary.getD "no summary"
          branch_type := r.branchType
          commit_time :=
            naiveDateTimeFromTimestamp r.seconds 0 + durationMinutes r.offsetMinutes
          is_head := r.isHead }
    else .error (.gitError "peel_to_commit failed")

/-! ## Collection and filtering (src/src/main.rs lines 159-212, 221-231) -/

/-- The `indelible_branches` set built in `main` (lines 221-231).  A
`HashSet<String>`'s `contains` is exact string equality, so the set is carried
as the literal list; membership is order-independent. -/
def indelibleBranches : List String :=
  ["origin/main", "main", "origin/master", "master",
    "origin/default", "origin/HEAD", "default"]

/-- The filter closure of `get_branches` (lines 192-206) on a successfully
extracted branch: exclude names in `ignore` (exact match); when `filter_in` is
present additionally require the lowercased name to contain the lowercased
filter.  (Error items pass the closure unchanged and abort at `collect`.) -/
def passesFilter (ignore : List String) (filter_in : Option String) (b : Branch) : Bool :=
  match filter_in with
  | some f => !(ignore.contains b.name) && strOccurs (to_lowercase f) (to_lowercase b.name)
  | none => !(ignore.contains b.name)

/-- Lines 168-207 of `get_branches`: the lazy iterator chain
`map(extract).filter(...).collect::<Result<Vec<_>>>()`.  Handles are pulled in
enumeration order; the first extraction error aborts the whole collection with
that error (a filtered-out error never exists: error items pass the filter);
successfully extracted branches are kept exactly when they pass the filter. -/
def collectFilter (ignore : List String) (filter_in : Option String) :
    List RawBranch → Except Error (List Branch)
  | [] => .ok []
  | r :: rs =>
    match extract r with
    | .error e => .error e
    | .ok b =>
      if passesFilter ignore filter_in b then
        (collectFilter ignore filter_in rs).map (fun l => b :: l)
      else
        collectFilter ignore filter_in rs

/-- The contract of `Vec::sort_unstable_by_key` (line 209), the one external
call whose exact algorithm lives outside this repository: the result is some
permutation of the input that is sorted by the key.  The standard library
documents this sort as unstable — it may reorder equal elements — so nothing
beyond this contract holds of line 209. -/
def sortUnstableByKeyContract (l sorted : List Branch) : Prop :=
  sorted.Perm l ∧ sorted.Pairwise (fun a b => a.commit_time ≤ b.commit_time)

/-- `get_branches` (lines 159-212) as a relation between the enumerated raw
handles and a possible returned list: lines 168-207 collect and filter, line
209 sorts by `commit_time` under the unstable-sort contract. -/
def getBranchesRel (raws : List RawBranch) (ignore : List String)
    (filter_in : Option String) (out : List Branch) : Prop :=
  ∃ mid, collectFilter ignore filter_in raws = .ok mid ∧
    sortUnstableByKeyContract mid out

/-- Stable insertion by `commit_time`: the new element goes before the first
element of greater-or-equal key, so earlier-enumerated elements of equal key
stay first. -/
def insertByTime (x : Branch) : List Branch → List Branch
  | [] => [x]
  | y :: ys =>
    if x.commit_time ≤ y.commit_time then x :: y :: ys
    else y :: insertByTime x ys

/-- Stable sort by `commit_time` (insertion sort), the sort the specification
describes: "sorted by commit_time ascending, ties broken by original
enumeration order". -/
def stableSortByTime : List Branch → List Branch
  | [] => []
  | x :: xs => insertByTime x (stableSortByTime xs)

/-- `get_branches` as the specification words it (the spec-side definition for
the stability comparison): collect and filter as the code does, then sort with
a stable sort by `commit_time`. -/
def specGetBranches (raws : List RawBranch) (ignore : List String)
    (filter_in : Option String) : Except Error (List Branch) :=
  (collectFilter ignore filter_in raws).map stableSortByTime

/-! ## Terminal presenter (src/src/main.rs lines 80-156)

Terminal output is embedded as the ordered list of strings passed to `write!`
(one list element per `write!` call).  `set_color` emits an ANSI state change
with no text content and no claim mentions colors, so color changes are not
recorded in the trace.  Input is the stdin byte stream, a `List Nat`;
`stdin.next()` returning `None` is the empty list. -/

/-- The prompt shows `commit_time` through chrono's `Display` instance; no
claim inspects this text, so the embedding renders the underlying timestamp
value. -/
def timeDisplay (t : Int) : String := toString t

/-- `&branch.id.to_string()[1..=10]` (line 132): bytes 1 through 10 of the hex
id string — on ASCII hex, characters 1 through 10. -/
def idTrunc (id : String) : String := String.mk ((id.data.drop 1).take 10)

/-- The three `write!` calls rendering a branch before the prompt blocks
(lines 121-138). -/
def promptRender (b : Branch) : List String :=
  ["\n\r'" ++ branch_type_to_str b.branch_type ++ "' (" ++ b.name ++ ")",
    "\n\r\tlast commit as " ++ timeDisplay b.commit_time ++
      "\n\r\tlast commit id: " ++ idTrunc b.id ++
      " \n\r\tcommit author: " ++ b.commit_author ++
      " \n\r\tcommit summary: " ++ b.commit_summary ++ "\n\r",
    "(k/d/q/?) > "]

/-- The five help-menu `write!` calls (lines 98-102). -/
def helpLines : List String :=
  ["select from the following:\r\n",
    "\tk - Keep the branch\r\n",
    "\td - Delete the branch\r\n",
    "\tq - Quit\r\n",
    "\t? - Help\r\n"]

/-- The echo of the received keystroke, `write!(stdout, "{}\r\n", c)`
(line 95). -/
def echoLine (c : Char) : String := String.singleton c ++ "\r\n"

/-- The result of one prompt interaction: the output written, the input bytes
left unread, and the resolution — `none` when the fuel ran out (the real
program would still be looping), otherwise the `Result<BranchAction>`. -/
structure PromptOut where
  out : List String
  rest : List Nat
  res : Option (Except Error BranchAction)
deriving Repr

instance {ε α : Type} [DecidableEq ε] [DecidableEq α] : DecidableEq (Except ε α) := fun a b =>
  match a, b with
  | .error e, .error f => decidable_of_iff (e = f) (by simp)
  | .ok x, .ok y => decidable_of_iff (x = y) (by simp)
  | .error _, .ok _ => isFalse (by simp)
  | .ok _, .error _ => isFalse (by simp)

instance : DecidableEq PromptOut := fun a b =>
  decidable_of_iff (a.out = b.out ∧ a.rest = b.rest ∧ a.res = b.res)
    (by cases a; cases b; simp)

/-- `fn process_user_request` (lines 88-108): echo the keystroke; on `'?'`
print the help menu and re-prompt (consuming no decision), otherwise map the
character through `BranchAction::try_from`.  In the Rust source the re-prompt
is the mutually recursive call `request_user_input(stdout, stdin, branch)`;
here that call, with its fuel already threaded, is passed as the continuation
`req`, which keeps the pair structurally recursive on the fuel. -/
def process_user_request (req : List Nat → PromptOut) (byte : Nat)
    (_b : Branch) (input : List Nat) : PromptOut :=
  let c := Char.ofNat byte
  if c = '?' then
    let r := req input
    ⟨echoLine c :: (helpLines ++ r.out), r.rest, r.res⟩
  else
    ⟨[echoLine c], input, some (branchActionTryFrom c)⟩

/-- `fn request_user_input` (lines 111-148): render the branch summary and the
action prompt, block for one byte; on end-of-input recurse (re-prompt), else
hand the byte to `process_user_request`.  The fuel bounds the recursion depth;
the Rust function has no such bound and can loop forever on a closed stdin. -/
def request_user_input : Nat → Branch → List Nat → PromptOut
  | 0, _, input => ⟨[], input, none⟩
  | fuel + 1, b, input =>
    match input with
    | [] =>
      let r := request_user_input fuel b []
      ⟨promptRender b ++ r.out, r.rest, r.res⟩
    | byte :: rest =>
      let r := process_user_request (request_user_input fuel b) byte b rest
      ⟨promptRender b ++ r.out, r.rest, r.res⟩

/-! ## The triage loop of `main` (src/src/main.rs lines 270-304) -/

/-- `write!(stdout, "Ignoring current branch: '{}'\r\n", branch.name)`
(line 278). -/
def noticeLine (b : Branch) : String :=
  "Ignoring current branch: '" ++ b.name ++ "'\r\n"

/-- The fixed remote-deletion refusal (line 299). -/
def remoteRefusal : String :=
  "\tI don't want to be responsible for deleting remote branches. \n\r\tgithub.com has a great interface for such endeavours.\r\n"

/-- `write!(stdout, "'{}' was deleted.\r\n ", branch.name)` (line 289). -/
def deletedMsg (b : Branch) : String := "'" ++ b.name ++ "' was deleted.\r\n "

/-- The restoration hint
`write!(stdout, "to undo, run:\r\n \tgit branch {} {}\r\n\n", branch.name, branch.id)`
(lines 292-296). -/
def undoHint (b : Branch) : String :=
  "to undo, run:\r\n \tgit branch " ++ b.name ++ " " ++ b.id ++ "\r\n\n"

/-- The `BranchAction::Delete` arm (lines 285-301): for a local branch, delete
the reference (first component: the mutation trace of this step) and print the
confirmation and the restoration hint; for a remote branch, mutate nothing and
print the fixed refusal.  (`branch.delete()` failing is an external VCS error,
unexercised by any claim; the embedding records the successful deletion.) -/
def resolveDelete (b : Branch) : List Branch × List String :=
  match b.branch_type with
  | .Local => ([b], [deletedMsg b, undoHint b])
  | .Remote => ([], [remoteRefusal])

/-- How the triage loop ended: fell off the list, user quit, fatal error, or
fuel exhausted while the real program would still be re-prompting. -/
inductive LoopOutcome where
  | finished
  | quit
  | fatal (e : Error)
  | starved
deriving DecidableEq, Repr

/-- The observable result of the triage loop: branches deleted (in order),
terminal output written, input bytes left unread, and how it ended. -/
structure LoopResult where
  deleted : List Branch
  out : List String
  rest : List Nat
  outcome : LoopOutcome
deriving DecidableEq, Repr

/-- The `for branch in branches` loop (lines 270-304): a HEAD branch gets the
informational notice and nothing else (no prompt, no input read); otherwise
the prompt runs, and the resolved action is dispatched — `Quit` returns from
the closure at once, `Keep` writes the empty string and continues, `Delete`
runs `resolveDelete` and continues.  An error from the prompt propagates via
`?` and aborts the loop. -/
def triageLoop (fuel : Nat) : List Branch → List Nat → LoopResult
  | [], input => ⟨[], [], input, .finished⟩
  | b :: bs, input =>
    if b.is_head then
      let r := triageLoop fuel bs input
      ⟨r.deleted, noticeLine b :: r.out, r.rest, r.outcome⟩
    else
      let pr := request_user_input fuel b input
      match pr.res with
      | none => ⟨[], pr.out, pr.rest, .starved⟩
      | some (.error e) => ⟨[], pr.out, pr.rest, .fatal e⟩
      | some (.ok .Quit) => ⟨[], pr.out, pr.rest, .quit⟩
      | some (.ok .Keep) =>
        let r := triageLoop fuel bs pr.rest
        ⟨r.deleted, pr.out ++ [""] ++ r.out, r.rest, r.outcome⟩
      | some (.ok .Delete) =>
        let d := resolveDelete b
        let r := triageLoop fuel bs pr.rest
        ⟨d.1 ++ r.deleted, pr.out ++ d.2 ++ r.out, r.rest, r.outcome⟩

/-- The process exit code each loop outcome leads to in `main` (lines
308-319): a closure result of `Ok` — normal completion or user quit — exits 0,
an `Err` prints its message and exits 1; a starved run models the program
still spinning in the re-prompt loop, which never exits at all. -/
def exitCodeOf : LoopOutcome → Option Nat
  | .finished => some (processExitCode (.ok ()))
  | .quit => some (processExitCode (.ok ()))
  | .fatal e => some (processExitCode (.error e))
  | .starved => none

/-- Sequential composition of two triage-loop runs: the second run only
happens when the first fell off its branch list normally; a quit, fatal error
or starved prompt in the first run ends everything there. -/
def combineRuns (r₁ : LoopResult) (k : List Nat → LoopResult) : LoopResult :=
  match r₁.outcome with
  | .finished =>
    let r₂ := k r₁.rest
    ⟨r₁.deleted ++ r₂.deleted, r₁.out ++ r₂.out, r₂.rest, r₂.outcome⟩
  | _ => r₁

/-! ## Concrete sample data for witnesses -/

/-- UTF-8 bytes of an ASCII string. -/
def asciiBytes (s : String) : List Nat := s.data.map Char.toNat

/-- A 40-character hex commit id used by the sample branches. -/
def sampleId : String := "0123456789abcdef0123456789abcdef01234567"

/-- A raw branch handle for the sample repository. -/
def mkRaw (nm : String) (t : Int) (ty : BranchType) (hd : Bool) : RawBranch :=
  ⟨asciiBytes nm, sampleId, t, 0, some "alice", some "work", ty, hd, true⟩

/-- An extracted sample branch. -/
def mkBranch (nm : String) (t : Int) (ty : BranchType) (hd : Bool) : Branch :=
  ⟨sampleId, nm, "alice", "work", ty, t, hd⟩

/-- A raw branch handle whose name bytes are not valid UTF-8 (0xFF is never
legal in UTF-8). -/
def rawBadName : RawBranch :=
  ⟨[0xFF], sampleId, 7, 0, some "alice", some "work", .Local, false, true⟩

/-- First-enumerated sample branch of a commit-time tie. -/
def rawTieA : RawBranch := mkRaw "tie-a" 5 .Local false

/-- Second-enumerated sample branch of the same commit time. -/
def rawTieB : RawBranch := mkRaw "tie-b" 5 .Local false

/-- The extraction of `rawTieA`. -/
def tieA : Branch := mkBranch "tie-a" 5 .Local false

/-- The extraction of `rawTieB`. -/
def tieB : Branch := mkBranch "tie-b" 5 .Local false

/-- A raw branch with a nonzero commit timezone offset (+90 minutes on epoch
second 1000). -/
def rawOffset : RawBranch :=
  ⟨asciiBytes "tz", sampleId, 1000, 90, some "alice", some "work", .Local, false, true⟩

/-- The branch `rawOffset` extracts to: its commit_time is the naive local
timestamp 1000 + 90 * 60 = 6400. -/
def bOffset : Branch := ⟨sampleId, "tz", "alice", "work", .Local, 6400, false⟩

/-! ## Helper lemmas -/

theorem listStartsWith_append (pat rest : List Char) :
    listStartsWith pat (pat ++ rest) = true := by
  induction pat with
  | nil => rfl
  | cons p ps ih => simp [listStartsWith, ih]

theorem listOccurs_append_self (pat rest : List Char) :
    listOccurs pat (pat ++ rest) = true := by
  cases pat with
  | nil => cases rest <;> simp [listOccurs, listStartsWith]
  | cons p ps =>
    have h := listStartsWith_append (p :: ps) rest
    simp only [List.cons_append] at h
    simp [listOccurs, h]

theorem listOccurs_append_left (pat t a : List Char)
    (h : listOccurs pat t = true) : listOccurs pat (a ++ t) = true := by
  induction a with
  | nil => simpa using h
  | cons x xs ih => simp [listOccurs, ih]

theorem strOccurs_name_undoHint (b : Branch) : strOccurs b.name (undoHint b) = true := by
  unfold strOccurs undoHint
  simp only [String.data_append, List.append_assoc]
  exact listOccurs_append_left _ _ _ (listOccurs_append_self _ _)

theorem strOccurs_id_undoHint (b : Branch) : strOccurs b.id (undoHint b) = true := by
  unfold strOccurs undoHint
  simp only [String.data_append, List.append_assoc]
  exact listOccurs_append_left _ _ _ (listOccurs_append_left _ _ _
    (listOccurs_append_left _ _ _ (listOccurs_append_self _ _)))

theorem strOccurs_char_invalidMsg (c : Char) :
    strOccurs (String.singleton c) (Error.message (.invalidInput c)) = true := by
  unfold strOccurs Error.message
  simp only [String.data_append, List.append_assoc]
  exact listOccurs_append_left _ _ _ (listOccurs_append_self _ _)

theorem mem_of_collectFilter_ok {ig : List String} {f : Option String}
    {raws : List RawBranch} {l : List Branch} {b : Branch}
    (h : collectFilter ig f raws = .ok l) (hb : b ∈ l) :
    passesFilter ig f b = true ∧ ∃ r ∈ raws, extract r = .ok b := by
  induction raws generalizing l with
  | nil =>
    simp [collectFilter] at h
    subst h
    simp at hb
  | cons r rs ih =>
    cases hE : extract r with
    | error e => simp [collectFilter, hE] at h
    | ok b' =>
      simp only [collectFilter, hE] at h
      by_cases hP : passesFilter ig f b'
      · rw [if_pos hP] at h
        cases hC : collectFilter ig f rs with
        | error e => simp [hC, Except.map] at h
        | ok l' =>
          rw [hC] at h
          simp only [Except.map, Except.ok.injEq] at h
          subst h
          rcases List.mem_cons.mp hb with rfl | hb'
          · exact ⟨hP, r, List.mem_cons_self r rs, hE⟩
          · obtain ⟨hp, rr, hrr, he⟩ := ih hC hb'
            exact ⟨hp, rr, List.mem_cons_of_mem _ hrr, he⟩
      · rw [if_neg hP] at h
        obtain ⟨hp, rr, hrr, he⟩ := ih h hb
        exact ⟨hp, rr, List.mem_cons_of_mem _ hrr, he⟩

theorem collectFilter_mem_of {ig : List String} {f : Option String}
    {raws : List RawBranch} {l : List Branch} {r : RawBranch} {b : Branch}
    (h : collectFilter ig f raws = .ok l) (hr : r ∈ raws)
    (he : extract r = .ok b) (hp : passesFilter ig f b = true) : b ∈ l := by
  induction raws generalizing l with
  | nil => simp at hr
  | cons r₀ rs ih =>
    rcases List.mem_cons.mp hr with rfl | hr'
    · simp only [collectFilter, he] at h
      rw [if_pos hp] at h
      cases hC : collectFilter ig f rs with
      | error e => simp [hC, Except.map] at h
      | ok l' =>
        rw [hC] at h
        simp only [Except.map, Except.ok.injEq] at h
        subst h
        exact List.mem_cons_self _ _
    · cases hE : extract r₀ with
      | error e => simp [collectFilter, hE] at h
      | ok b' =>
        simp only [collectFilter, hE] at h
        by_cases hP : passesFilter ig f b'
        · rw [if_pos hP] at h
          cases hC : collectFilter ig f rs with
          | error e => simp [hC, Except.map] at h
          | ok l' =>
            rw [hC] at h
            simp only [Except.map, Except.ok.injEq] at h
            subst h
            exact List.mem_cons_of_mem _ (ih hC hr')
        · rw [if_neg hP] at h
          exact ih h hr'

theorem collectFilter_fail_fast (ig : List String) (f : Option String)
    (pre : List RawBranch) (r : RawBranch) (post : List RawBranch) (e : Error)
    (hpre : ∀ p ∈ pre, ∃ b, extract p = .ok b) (hr : extract r = .error e) :
    collectFilter ig f (pre ++ r :: post) = .error e := by
  induction pre with
  | nil => simp [collectFilter, hr]
  | cons p ps ih =>
    obtain ⟨b, hb⟩ := hpre p (List.mem_cons_self p ps)
    have ih' := ih (fun q hq => hpre q (List.mem_cons_of_mem _ hq))
    simp only [List.cons_append, collectFilter, hb]
    by_cases hP : passesFilter ig f b <;> simp [hP, ih', Except.map]

theorem request_user_input_eof (fuel : Nat) (b : Branch) :
    request_user_input fuel b [] =
      ⟨(List.replicate fuel (promptRender b)).flatten, [], none⟩ := by
  induction fuel with
  | zero => simp [request_user_input]
  | succ n ih => simp [request_user_input, ih, List.replicate_succ]

theorem triageLoop_head (fuel : Nat) (b : Branch) (bs : List Branch)
    (input : List Nat) (hh : b.is_head = true) :
    triageLoop fuel (b :: bs) input =
      ⟨(triageLoop fuel bs input).deleted,
        noticeLine b :: (triageLoop fuel bs input).out,
        (triageLoop fuel bs input).rest,
        (triageLoop fuel bs input).outcome⟩ := by
  simp [triageLoop, hh]

theorem triageLoop_quit (fuel : Nat) (b : Branch) (bs : List Branch)
    (input : List Nat) (hh : b.is_head = false)
    (hq : (request_user_input fuel b input).res = some (.ok .Quit)) :
    triageLoop fuel (b :: bs) input =
      ⟨[], (request_user_input fuel b input).out,
        (request_user_input fuel b input).rest, .quit⟩ := by
  simp [triageLoop, hh, hq]

theorem triageLoop_delete (fuel : Nat) (b : Branch) (bs : List Branch)
    (input : List Nat) (hh : b.is_head = false)
    (hd : (request_user_input fuel b input).res = some (.ok .Delete)) :
    triageLoop fuel (b :: bs) input =
      ⟨(resolveDelete b).1 ++
          (triageLoop fuel bs (request_user_input fuel b input).rest).deleted,
        (request_user_input fuel b input).out ++ (resolveDelete b).2 ++
          (triageLoop fuel bs (request_user_input fuel b input).rest).out,
        (triageLoop fuel bs (request_user_input fuel b input).rest).rest,
        (triageLoop fuel bs (request_user_input fuel b input).rest).outcome⟩ := by
  simp [triageLoop, hh, hd]

theorem triageLoop_fatal (fuel : Nat) (b : Branch) (bs : List Branch)
    (input : List Nat) (e : Error) (hh : b.is_head = false)
    (he : (request_user_input fuel b input).res = some (.error e)) :
    triageLoop fuel (b :: bs) input =
      ⟨[], (request_user_input fuel b input).out,
        (request_user_input fuel b input).rest, .fatal e⟩ := by
  simp [triageLoop, hh, he]

theorem triageLoop_deleted_not_head (fuel : Nat) (bs : List Branch)
    (input : List Nat) :
    ∀ d ∈ (triageLoop fuel bs input).deleted, d.is_head = false := by
  induction bs generalizing input with
  | nil => simp [triageLoop]
  | cons b ps ih =>
    intro d hd
    by_cases hh : b.is_head
    · rw [triageLoop_head fuel b ps input hh] at hd
      exact ih input d hd
    · simp only [triageLoop, hh, if_neg, Bool.false_eq_true, if_false] at hd
      rcases hres : (request_user_input fuel b input).res with _ | res
      · simp [hres] at hd
      · rcases res with e | act
        · simp [hres] at hd
        · cases act with
          | Keep =>
            simp only [hres] at hd
            exact ih _ d hd
          | Delete =>
            simp only [hres] at hd
            rcases List.mem_append.mp hd with hd₁ | hd₂
            · have hb : d = b := by
                rcases hty : b.branch_type with _ | _ <;>
                  simp [resolveDelete, hty] at hd₁ <;> try exact hd₁
              subst hb
              exact Bool.not_eq_true _ ▸ (by simpa using hh)
            · exact ih _ d hd₂
          | Quit => simp [hres] at hd

theorem triageLoop_append (fuel : Nat) (pre suf : List Branch) (input : List Nat) :
    triageLoop fuel (pre ++ suf) input =
      combineRuns (triageLoop fuel pre input) (triageLoop fuel suf) := by
  induction pre generalizing input with
  | nil => simp [triageLoop, combineRuns]
  | cons b ps ih =>
    by_cases hh : b.is_head
    · rw [List.cons_append, triageLoop_head fuel b (ps ++ suf) input hh,
        triageLoop_head fuel b ps input hh, ih]
      cases hout : (triageLoop fuel ps input).outcome <;>
        simp [combineRuns, hout]
    · rw [List.cons_append]
      simp only [triageLoop, hh, Bool.false_eq_true, if_false]
      rcases hres : (request_user_input fuel b input).res with _ | res
      · simp [combineRuns]
      · rcases res with e | act
        · simp [combineRuns]
        · cases act with
          | Keep =>
            rw [ih]
            cases hout : (triageLoop fuel ps
                (request_user_input fuel b input).rest).outcome <;>
              simp [combineRuns, hout]
          | Delete =>
            rw [ih]
            cases hout : (triageLoop fuel ps
                (request_user_input fuel b input).rest).outcome <;>
              simp [combineRuns, hout]
          | Quit => simp [combineRuns]

theorem branchActionTryFrom_other (c : Char) (hk : c ≠ 'k') (hd : c ≠ 'd')
    (hq : c ≠ 'q') : branchActionTryFrom c = .error (.invalidInput c) := by
  unfold branchActionTryFrom
  split <;> simp_all

theorem request_single (n byte : Nat) (b : Branch) (rest : List Nat)
    (h : Char.ofNat byte ≠ '?') :
    request_user_input (n + 1) b (byte :: rest) =
      ⟨promptRender b ++ [echoLine (Char.ofNat byte)], rest,
        some (branchActionTryFrom (Char.ofNat byte))⟩ := by
  simp [request_user_input, process_user_request, h]

theorem request_help_then_delete (n : Nat) (b : Branch) (rest : List Nat) :
    request_user_input (n + 2) b (0x3F :: 0x64 :: rest) =
      ⟨promptRender b ++
          echoLine '?' :: (helpLines ++ (promptRender b ++ [echoLine 'd'])),
        rest, some (.ok .Delete)⟩ := by
  have h63 : Char.ofNat 0x3F = '?' := by decide
  have h100 : Char.ofNat 0x64 = 'd' := by decide
  show request_user_input ((n + 1) + 1) b (0x3F :: 0x64 :: rest) = _
  simp [request_user_input, process_user_request, h63, h100, branchActionTryFrom]

/-! ## The claims -/

/-- C1: when the user resolves a non-head branch with Delete, the loop step
performs exactly the mutations of `resolveDelete` and nothing else; for a
local branch that is exactly the one reference `b` together with a
confirmation and a restoration hint containing the branch's original name and
original commit id; for a remote branch it is no mutation at all together with
the fixed refusal message, unconditionally. -/
theorem c1_delete_local_deletes_remote_refuses (fuel : Nat) (b : Branch)
    (bs : List Branch) (input : List Nat) (hh : b.is_head = false)
    (hres : (request_user_input fuel b input).res = some (.ok .Delete)) :
    triageLoop fuel (b :: bs) input =
      ⟨(resolveDelete b).1 ++
          (triageLoop fuel bs (request_user_input fuel b input).rest).deleted,
        (request_user_input fuel b input).out ++ (resolveDelete b).2 ++
          (triageLoop fuel bs (request_user_input fuel b input).rest).out,
        (triageLoop fuel bs (request_user_input fuel b input).rest).rest,
        (triageLoop fuel bs (request_user_input fuel b input).rest).outcome⟩ ∧
    (b.branch_type = .Local →
      resolveDelete b = ([b], [deletedMsg b, undoHint b]) ∧
      strOccurs b.name (undoHint b) = true ∧
      strOccurs b.id (undoHint b) = true) ∧
    (b.branch_type = .Remote → resolveDelete b = ([], [remoteRefusal])) := by
  refine ⟨triageLoop_delete fuel b bs input hh hres, ?_, ?_⟩
  · intro hty
    exact ⟨by simp [resolveDelete, hty], strOccurs_name_undoHint b,
      strOccurs_id_undoHint b⟩
  · intro hty
    simp [resolveDelete, hty]

/-- C1 witness: a local branch resolved with `'d'` is the one deletion of the
run, and a remote branch resolved with `'d'` produces no deletion. -/
theorem c1_witness :
    (triageLoop 2 (mkBranch "feature-x" 1 .Local false :: []) [0x64]).deleted =
      [mkBranch "feature-x" 1 .Local false] ∧
    (triageLoop 2 (mkBranch "mirror" 1 .Remote false :: []) [0x64]).deleted = [] := by
  constructor
  · have h := c1_delete_local_deletes_remote_refuses 2
      (mkBranch "feature-x" 1 .Local false) [] [0x64] (by decide) (by decide)
    rw [h.1, (h.2.1 rfl).1]
    simp [triageLoop]
  · have h := c1_delete_local_deletes_remote_refuses 2
      (mkBranch "mirror" 1 .Remote false) [] [0x64] (by decide) (by decide)
    rw [h.1, (h.2.2 rfl)]
    simp [triageLoop]

/-- C2: a branch with `is_head` true gets exactly the informational notice:
its loop step adds the notice line and otherwise behaves as if the branch were
absent — no prompt is rendered for it, no input byte is consumed for it — and
no head branch ever appears in the deletion trace of any run. -/
theorem c2_head_branch_skipped (fuel : Nat) (b : Branch) (bs : List Branch)
    (input : List Nat) (hh : b.is_head = true) :
    triageLoop fuel (b :: bs) input =
      ⟨(triageLoop fuel bs input).deleted,
        noticeLine b :: (triageLoop fuel bs input).out,
        (triageLoop fuel bs input).rest,
        (triageLoop fuel bs input).outcome⟩ ∧
    b ∉ (triageLoop fuel (b :: bs) input).deleted := by
  refine ⟨triageLoop_head fuel b bs input hh, fun hmem => ?_⟩
  have := triageLoop_deleted_not_head fuel (b :: bs) input b hmem
  rw [hh] at this
  exact Bool.noConfusion this

/-- C2 witness: the current branch's step consumes no input, prints the
notice, and the branch is not deleted. -/
theorem c2_witness :
    triageLoop 1 (mkBranch "current" 3 .Local true :: []) [] =
      ⟨(triageLoop 1 ([] : List Branch) []).deleted,
        noticeLine (mkBranch "current" 3 .Local true) ::
          (triageLoop 1 ([] : List Branch) []).out,
        (triageLoop 1 ([] : List Branch) []).rest,
        (triageLoop 1 ([] : List Branch) []).outcome⟩ ∧
    mkBranch "current" 3 .Local true ∉
      (triageLoop 1 (mkBranch "current" 3 .Local true :: []) []).deleted :=
  c2_head_branch_skipped 1 (mkBranch "current" 3 .Local true) [] [] (by decide)

/-- C8: every successfully extracted branch's `commit_time` is the commit's
recorded seconds-since-epoch shifted by its recorded UTC offset in minutes —
the naive timestamp of the commit's local frame, with no other conversion. -/
theorem c8_commit_time_local_frame (raw : RawBranch) (b : Branch)
    (h : extract raw = .ok b) :
    b.commit_time = raw.seconds + 60 * raw.offsetMinutes := by
  cases hu : utf8Decode raw.nameBytes with
  | none => simp [extract, hu] at h
  | some cps =>
    simp only [extract, hu] at h
    by_cases hp : raw.peelOk
    · rw [if_pos hp] at h
      cases h
      rfl
    · rw [if_neg hp] at h
      exact absurd h (by simp)

/-- C8 witness: epoch second 1000 with offset +90 minutes extracts to naive
local timestamp 6400. -/
theorem c8_witness : bOffset.commit_time = 1000 + 60 * 90 :=
  c8_commit_time_local_frame rawOffset bOffset (by decide)

/-- C3 (amended): every list `get_branches` can return is sorted by
`commit_time` ascending — position-wise monotone — and is a permutation of the
filtered collection; the order of branches with equal `commit_time` is not
specified, because line 209 uses `sort_unstable_by_key`, whose contract does
not preserve the enumeration order of equal keys. -/
theorem c3_sorted_by_commit_time (raws : List RawBranch) (ig : List String)
    (f : Option String) (out : List Branch) (h : getBranchesRel raws ig f out) :
    (∀ (i j : Fin out.length), (i : Nat) ≤ (j : Nat) →
      (out.get i).commit_time ≤ (out.get j).commit_time) ∧
    ∃ mid, collectFilter ig f raws = .ok mid ∧ out.Perm mid := by
  obtain ⟨mid, hmid, hperm, hsorted⟩ := h
  refine ⟨fun i j hij => ?_, mid, hmid, hperm⟩
  rcases Nat.eq_or_lt_of_le hij with heq | hlt
  · rw [Fin.ext heq]
  · exact List.pairwise_iff_get.mp hsorted i j hlt

/-- C3 counterexample: on two branches sharing commit_time 5, the reversed
order `[tieB, tieA]` satisfies everything line 209's unstable sort guarantees,
yet differs from the stable result `[tieA, tieB]` the claim demands — so
"equal commit_time keeps original enumeration order" does not hold of the
code. -/
theorem c3_counterexample :
    getBranchesRel [rawTieA, rawTieB] indelibleBranches none [tieB, tieA] ∧
    specGetBranches [rawTieA, rawTieB] indelibleBranches none ≠
      .ok [tieB, tieA] := by
  constructor
  · exact ⟨[tieA, tieB], by decide, List.Perm.swap tieA tieB [], by decide⟩
  · decide

/-- C3 witness: the amended theorem applied to the tie example — the returned
list is position-wise sorted. -/
theorem c3_witness :
    (([tieB, tieA].get ⟨0, by decide⟩).commit_time ≤
      ([tieB, tieA].get ⟨1, by decide⟩).commit_time) :=
  (c3_sorted_by_commit_time [rawTieA, rawTieB] indelibleBranches none
      [tieB, tieA]
      ⟨[tieA, tieB], by decide, List.Perm.swap tieA tieB [], by decide⟩).1
    ⟨0, by decide⟩ ⟨1, by decide⟩ (by decide)

/-- C4: under the protected set built in `main`, a branch appears in the
collected list only if its name is not one of the seven protected literals
and, when a filter string is present, its lowercased name contains the
lowercased filter; conversely every successfully extracted branch passing both
checks appears. -/
theorem c4_filter_policy (raws : List RawBranch) (f : Option String)
    (l : List Branch) (h : collectFilter indelibleBranches f raws = .ok l) :
    (∀ b ∈ l, indelibleBranches.contains b.name = false ∧
      ∀ fs, f = some fs →
        strOccurs (to_lowercase fs) (to_lowercase b.name) = true) ∧
    (∀ r ∈ raws, ∀ b, extract r = .ok b →
      indelibleBranches.contains b.name = false →
      (∀ fs, f = some fs →
        strOccurs (to_lowercase fs) (to_lowercase b.name) = true) →
      b ∈ l) := by
  constructor
  · intro b hb
    obtain ⟨hp, -⟩ := mem_of_collectFilter_ok h hb
    cases f with
    | none =>
      simp only [passesFilter, Bool.not_eq_true'] at hp
      exact ⟨hp, fun fs hfs => Option.noConfusion hfs⟩
    | some fs0 =>
      simp only [passesFilter, Bool.and_eq_true, Bool.not_eq_true'] at hp
      exact ⟨hp.1, fun fs hfs => by cases Option.some.inj hfs; exact hp.2⟩
  · intro r hr b he hni hf
    refine collectFilter_mem_of h hr he ?_
    have hni' : b.name ∉ indelibleBranches := by simpa using hni
    cases f with
    | none => simp [passesFilter, hni']
    | some fs0 => simp [passesFilter, hni', hf fs0 rfl]

/-- C4 witness: with filter "EAT", the branch "fEAture-x" passes both checks
and is collected; its name is outside the protected set and its lowercase name
contains "eat". -/
theorem c4_witness :
    (indelibleBranches.contains (mkBranch "fEAture-x" 5 .Local false).name = false ∧
      strOccurs (to_lowercase "EAT")
        (to_lowercase (mkBranch "fEAture-x" 5 .Local false).name) = true) ∧
    mkBranch "fEAture-x" 5 .Local false ∈ [mkBranch "fEAture-x" 5 .Local false] := by
  have h := c4_filter_policy
    [mkRaw "main" 1 .Local false, mkRaw "fEAture-x" 5 .Local false]
    (some "EAT") [mkBranch "fEAture-x" 5 .Local false] (by decide)
  refine ⟨?_, ?_⟩
  · have h1 := h.1 (mkBranch "fEAture-x" 5 .Local false) (by decide)
    exact ⟨h1.1, h1.2 "EAT" rfl⟩
  · exact h.2 (mkRaw "fEAture-x" 5 .Local false) (by decide)
      (mkBranch "fEAture-x" 5 .Local false) (by decide) (by decide)
      (fun fs hfs => by cases Option.some.inj hfs; decide)

/-- C6: collection is fail-fast — when every branch before `r` extracts
successfully and `r`'s extraction fails, the whole collection returns exactly
`r`'s error and no list; in particular a branch whose name bytes are not valid
UTF-8 is a hard extraction error. -/
theorem c6_fail_fast (ig : List String) (f : Option String)
    (pre : List RawBranch) (r : RawBranch) (post : List RawBranch) (e : Error)
    (hpre : ∀ p ∈ pre, ∃ b, extract p = .ok b) (hr : extract r = .error e) :
    collectFilter ig f (pre ++ r :: post) = .error e ∧
    (∀ raw : RawBranch, utf8Decode raw.nameBytes = none →
      extract raw = .error .fromUtf8Error) := by
  refine ⟨collectFilter_fail_fast ig f pre r post e hpre hr, ?_⟩
  intro raw hu
  simp [extract, hu]

/-- C6 witness: a valid branch followed by one whose name byte 0xFF is not
UTF-8 makes the whole collection return the encoding error, not a partial
list. -/
theorem c6_witness :
    collectFilter indelibleBranches none
      ([mkRaw "good" 1 .Local false] ++ rawBadName :: []) =
        .error .fromUtf8Error ∧
    extract rawBadName = .error .fromUtf8Error := by
  have h := c6_fail_fast indelibleBranches none [mkRaw "good" 1 .Local false]
    rawBadName [] .fromUtf8Error
    (fun p hp => by
      rcases List.mem_singleton.mp hp with rfl
      exact ⟨mkBranch "good" 1 .Local false, by decide⟩)
    (by decide)
  exact ⟨h.1, h.2 rawBadName (by decide)⟩

/-- C7: if the user quits at a branch after a prefix of the list has been
processed to completion, the loop result keeps exactly the deletions of that
prefix — the quit branch and everything after it are untouched — and the
process exits with code 0. -/
theorem c7_quit_stops_loop (fuel : Nat) (pre post : List Branch) (b : Branch)
    (input : List Nat)
    (hfin : (triageLoop fuel pre input).outcome = .finished)
    (hh : b.is_head = false)
    (hq : (request_user_input fuel b (triageLoop fuel pre input).rest).res =
      some (.ok .Quit)) :
    (triageLoop fuel (pre ++ b :: post) input).deleted =
      (triageLoop fuel pre input).deleted ∧
    (triageLoop fuel (pre ++ b :: post) input).outcome = .quit ∧
    exitCodeOf (triageLoop fuel (pre ++ b :: post) input).outcome = some 0 := by
  rw [triageLoop_append fuel pre (b :: post) input]
  simp only [combineRuns, hfin]
  rw [triageLoop_quit fuel b post (triageLoop fuel pre input).rest hh hq]
  simp [exitCodeOf, processExitCode]

/-- C7 witness: keeping the first branch and quitting at the second leaves the
third untouched — no deletions at all — with outcome quit and exit code 0. -/
theorem c7_witness :
    (triageLoop 3 ([mkBranch "one" 1 .Local false] ++
        mkBranch "two" 2 .Local false :: [mkBranch "three" 3 .Local false])
      [0x6B, 0x71]).deleted =
      (triageLoop 3 [mkBranch "one" 1 .Local false] [0x6B, 0x71]).deleted ∧
    (triageLoop 3 ([mkBranch "one" 1 .Local false] ++
        mkBranch "two" 2 .Local false :: [mkBranch "three" 3 .Local false])
      [0x6B, 0x71]).outcome = .quit ∧
    exitCodeOf (triageLoop 3 ([mkBranch "one" 1 .Local false] ++
        mkBranch "two" 2 .Local false :: [mkBranch "three" 3 .Local false])
      [0x6B, 0x71]).outcome = some 0 :=
  c7_quit_stops_loop 3 [mkBranch "one" 1 .Local false]
    [mkBranch "three" 3 .Local false] (mkBranch "two" 2 .Local false)
    [0x6B, 0x71] (by decide) (by decide) (by decide)

/-- C5: each decision comes from exactly one keystroke — `'k'` maps to Keep,
`'d'` to Delete, `'q'` to Quit; any other character (help aside) is
`InvalidInput` naming that character, whose message contains the character and
which is fatal (exit code 1); `'?'` prints the help menu once and re-prompts
without consuming a decision, so `'?'` then `'d'` on a local branch prints
help exactly once and then deletes the branch. -/
theorem c5_keystroke_mapping :
    (branchActionTryFrom 'k' = .ok .Keep ∧
      branchActionTryFrom 'd' = .ok .Delete ∧
      branchActionTryFrom 'q' = .ok .Quit) ∧
    (∀ c : Char, c ≠ 'k' → c ≠ 'd' → c ≠ 'q' →
      branchActionTryFrom c = .error (.invalidInput c)) ∧
    (∀ c : Char,
      strOccurs (String.singleton c) (Error.message (.invalidInput c)) = true) ∧
    (∀ e : Error, processExitCode (.error e) = 1) ∧
    (∀ (n : Nat) (b : Branch) (rest : List Nat),
      request_user_input (n + 2) b (0x3F :: 0x64 :: rest) =
        ⟨promptRender b ++
            echoLine '?' :: (helpLines ++ (promptRender b ++ [echoLine 'd'])),
          rest, some (.ok .Delete)⟩) ∧
    (∀ (n : Nat) (b : Branch) (bs : List Branch) (rest : List Nat),
      b.is_head = false → b.branch_type = .Local →
      (triageLoop (n + 2) (b :: bs) (0x3F :: 0x64 :: rest)).deleted =
        b :: (triageLoop (n + 2) bs rest).deleted) ∧
    (∀ (n byte : Nat) (b : Branch) (bs : List Branch),
      b.is_head = false →
      Char.ofNat byte ≠ 'k' → Char.ofNat byte ≠ 'd' →
      Char.ofNat byte ≠ 'q' → Char.ofNat byte ≠ '?' →
      (triageLoop (n + 1) (b :: bs) [byte]).outcome =
        .fatal (.invalidInput (Char.ofNat byte)) ∧
      exitCodeOf (triageLoop (n + 1) (b :: bs) [byte]).outcome = some 1) := by
  refine ⟨⟨by decide, by decide, by decide⟩, ?_, strOccurs_char_invalidMsg,
    fun e => rfl, request_help_then_delete, ?_, ?_⟩
  · intro c hk hd hq
    exact branchActionTryFrom_other c hk hd hq
  · intro n b bs rest hh hty
    rw [triageLoop_delete (n + 2) b bs (0x3F :: 0x64 :: rest) hh
      (by rw [request_help_then_delete n b rest])]
    rw [request_help_then_delete n b rest]
    simp [resolveDelete, hty]
  · intro n byte b bs hh hk hd hq hqm
    have hfat : (request_user_input (n + 1) b [byte]).res =
        some (.error (.invalidInput (Char.ofNat byte))) := by
      rw [request_single n byte b [] hqm]
      rw [branchActionTryFrom_other (Char.ofNat byte) hk hd hq]
    rw [triageLoop_fatal (n + 1) b bs [byte] (.invalidInput (Char.ofNat byte))
      hh hfat]
    exact ⟨rfl, rfl⟩

/-- C5 witness: the concrete mappings, the message naming `'x'`, and the `'?'`
then `'d'` run on a local branch — help printed once (the full output trace is
pinned), branch deleted — plus the fatal exit on input `'x'`. -/
theorem c5_witness :
    (branchActionTryFrom 'x' = .error (.invalidInput 'x')) ∧
    strOccurs (String.singleton 'x')
      (Error.message (.invalidInput 'x')) = true ∧
    (triageLoop 2 (mkBranch "feat" 1 .Local false :: []) [0x3F, 0x64]).deleted =
      mkBranch "feat" 1 .Local false :: (triageLoop 2 ([] : List Branch) []).deleted ∧
    (triageLoop 1 (mkBranch "feat" 1 .Local false :: []) [0x78]).outcome =
      .fatal (.invalidInput (Char.ofNat 0x78)) ∧
    exitCodeOf (triageLoop 1 (mkBranch "feat" 1 .Local false :: [])
      [0x78]).outcome = some 1 := by
  have h := c5_keystroke_mapping
  have hx := h.2.2.2.2.2.2 0 0x78 (mkBranch "feat" 1 .Local false) []
    (by decide) (by decide) (by decide) (by decide) (by decide)
  exact ⟨h.2.1 'x' (by decide) (by decide) (by decide), h.2.2.1 'x',
    h.2.2.2.2.2.1 0 (mkBranch "feat" 1 .Local false) [] [] (by decide) rfl,
    hx.1, hx.2⟩

/-- C9: on end-of-input the prompt loop re-prompts and waits instead of
resolving — with any recursion budget it renders the prompt that many times,
consumes nothing and produces no decision, so on a permanently closed input
stream it never terminates with a decision; the surrounding loop consequently
never reaches an exit. -/
theorem c9_eof_reprompts_forever (fuel : Nat) (b : Branch) (bs : List Branch)
    (hh : b.is_head = false) :
    request_user_input fuel b [] =
      ⟨(List.replicate fuel (promptRender b)).flatten, [], none⟩ ∧
    (triageLoop fuel (b :: bs) []).outcome = .starved ∧
    exitCodeOf (triageLoop fuel (b :: bs) []).outcome = none := by
  refine ⟨request_user_input_eof fuel b, ?_⟩
  have hres : (request_user_input fuel b []).res = none := by
    rw [request_user_input_eof fuel b]
  have : triageLoop fuel (b :: bs) [] =
      ⟨[], (request_user_input fuel b []).out,
        (request_user_input fuel b []).rest, .starved⟩ := by
    simp [triageLoop, hh, hres]
  rw [this]
  exact ⟨rfl, rfl⟩

/-- C9 witness: with budget 3 and a closed stdin the prompt renders three
times and nothing resolves; the loop never reaches an exit code. -/
theorem c9_witness :
    request_user_input 3 (mkBranch "feat" 1 .Local false) [] =
      ⟨(List.replicate 3 (promptRender (mkBranch "feat" 1 .Local false))).flatten,
        [], none⟩ ∧
    (triageLoop 3 (mkBranch "feat" 1 .Local false :: []) []).outcome = .starved ∧
    exitCodeOf (triageLoop 3 (mkBranch "feat" 1 .Local false :: [])
      []).outcome = none :=
  c9_eof_reprompts_forever 3 (mkBranch "feat" 1 .Local false) [] (by decide)

/-- C10: protected-name exclusion is exact and case-sensitive — a successfully
extracted branch whose name merely lowercases to a protected literal but is
not itself in the protected set is collected, and (when non-head and local)
keystroke `'d'` deletes it. -/
theorem c10_protected_exact_case_sensitive (raws : List RawBranch)
    (r : RawBranch) (b : Branch) (l : List Branch)
    (h : collectFilter indelibleBranches none raws = .ok l)
    (hr : r ∈ raws) (he : extract r = .ok b)
    (hni : indelibleBranches.contains b.name = false)
    (hcase : to_lowercase b.name ∈ indelibleBranches.map to_lowercase) :
    b ∈ l ∧
    (b.is_head = false → b.branch_type = .Local → ∀ (n : Nat) (bs : List Branch),
      (triageLoop (n + 1) (b :: bs) [0x64]).deleted =
        b :: (triageLoop (n + 1) bs []).deleted) := by
  constructor
  · refine collectFilter_mem_of h hr he ?_
    have hni' : b.name ∉ indelibleBranches := by simpa using hni
    simp [passesFilter, hni']
  · intro hh hty n bs
    have hres : (request_user_input (n + 1) b [0x64]).res =
        some (.ok .Delete) := by
      rw [request_single n 0x64 b [] (by decide)]
      have hd : branchActionTryFrom (Char.ofNat 0x64) = .ok .Delete := by decide
      simp [hd]
    rw [triageLoop_delete (n + 1) b bs [0x64] hh hres]
    rw [request_single n 0x64 b [] (by decide)]
    simp [resolveDelete, hty]

/-- C10 witness: "Main" lowercases to the protected literal "main" yet is
collected and deleted by `'d'`. -/
theorem c10_witness :
    mkBranch "Main" 2 .Local false ∈ [mkBranch "Main" 2 .Local false] ∧
    (triageLoop 1 (mkBranch "Main" 2 .Local false :: []) [0x64]).deleted =
      mkBranch "Main" 2 .Local false ::
        (triageLoop 1 ([] : List Branch) []).deleted := by
  have h := c10_protected_exact_case_sensitive [mkRaw "Main" 2 .Local false]
    (mkRaw "Main" 2 .Local false) (mkBranch "Main" 2 .Local false)
    [mkBranch "Main" 2 .Local false] (by decide) (by decide) (by decide)
    (by decide) (by decide)
  exact ⟨h.1, h.2 rfl rfl 0 []⟩

end Sierra
